import Mathlib

/-!
# Verification of the `my-cli` concurrent directory scanners

This file is a shallow embedding, in Lean 4, of the directory-scanning core of
the `my-cli` repository:

* `find-everything/internal/finder` (`finder.go`, `walker.go`, and the
  `FinderOptions` revision of `finder.go`): the concurrent pattern-matching
  file/directory finder;
* `check-folder-size/internal/scanner/scanner.go` and
  `check-folder-size/cmd/root.go`: the folder-size scanner and its CLI entry
  point.

Modelling conventions:

* Filesystems are inductive trees.  A file entry carries `Option Int`: the
  result `os.Stat`/`DirEntry.Info` would report (`none` = the call fails).
* Paths are strings; `filepath.Join p n` is modelled as `p ++ "/" ++ n`
  (faithful for cleaned paths whose components contain no separator, which is
  what a real filesystem produces), and `os.PathSeparator` is `'/'`.
* Go's `strings.Split(path, "/")` is implemented directly on the character
  list (`goSplit`), and `strings.ToLower` by the character-wise `goToLower` (faithful on
  ASCII names).
* Compiled regular expressions (`regexp.Regexp`) are abstracted as their
  `MatchString` functions, of type `String → Bool`; `regexp.Compile` is
  abstracted as a parameter `String → Option (String → Bool)` wherever a
  claim depends on compilation succeeding or failing.
* The concurrent walk of `walker.go` is modelled as a nondeterministic
  transition system on a scheduler state (pending jobs / aggregated results);
  scheduling nondeterminism covers every interleaving of the worker pool, and
  batched aggregation is absorbed by stating results up to permutation
  (multisets).
-/

namespace MyCli

/-! ## Path utilities (Go `strings` / `path/filepath` boundary) -/

/-- Splitting a character list at every `'/'`.  This is Go's
`strings.Split(s, string(os.PathSeparator))` on Linux, written on `List Char`.
`strings.Split("", "/") = [""]`, `strings.Split("/a", "/") = ["", "a"]`. -/
def splitSep : List Char → List (List Char)
  | [] => [[]]
  | c :: cs =>
    if c = '/' then [] :: splitSep cs
    else
      match splitSep cs with
      | [] => [[c]]
      | h :: t => (c :: h) :: t

/-- Model of Go `strings.Split(path, string(os.PathSeparator))`. -/
def goSplit (s : String) : List String :=
  (splitSep s.data).map (fun l => String.mk l)

/-- Model of Go `filepath.Join(p, n)` for a nonempty cleaned directory path
`p` and an entry name `n` (which, coming from `os.ReadDir`, contains no
separator). -/
def joinPath (p n : String) : String := p ++ "/" ++ n

/-- Model of Go `strings.ToLower`, character-wise (faithful on ASCII names;
Go applies the same case mapping to each rune). -/
def goToLower (s : String) : String := String.mk (s.data.map Char.toLower)

/-- Model of Go `filepath.Ext` composed over the final path element: the
suffix of the basename starting at its final dot (dot included), or `""` if
the basename has no dot.  Implemented by scanning the reversed characters up
to the first separator. -/
def goExt (s : String) : String :=
  let base := s.data.reverse.takeWhile (fun c => c ≠ '/')
  if base.contains '.' then
    String.mk ('.' :: (base.takeWhile (fun c => c ≠ '.')).reverse)
  else ""

/-! ## The `find-everything` finder (`internal/finder/finder.go`)

Compiled regular expressions are abstracted as their `MatchString` functions;
`regexp.Compile` as a `RegexCompiler` parameter. -/

/-- A compiled `regexp.Regexp`, abstracted as its `MatchString` function. -/
abbrev Regex := String → Bool

/-- Abstraction of `regexp.Compile`: `none` models a compilation error. -/
abbrev RegexCompiler := String → Option Regex

/-- The `FinderOptions` struct of the `FinderOptions` revision of `finder.go`.
The map-options revision reads the same fields out of a
`map[string]interface{}`; both are modelled by this record. -/
structure FinderOptions where
  caseSensitive : Bool
  maxWorkers : Int
  excludeDirs : List String
  excludePatterns : List String
  fileTypes : List String
  minSize : Int
  maxSize : Int
  showProgress : Bool
  maxResults : Int

/-- The compiled `FileFinder` state used by the scan.  `excludeDirs` and
`fileTypes` hold the lowercased keys of the corresponding Go
`map[string]bool` sets; `patternMatches` is the compiled
`patternRegex.MatchString`.  The mutable fields (context, cache, progress
tracker) are modelled separately where a claim needs them. -/
structure FileFinder where
  basePath : String
  excludeDirs : List String
  excludePatterns : List Regex
  fileTypes : List String
  minSize : Int
  maxSize : Int
  maxResults : Int
  patternMatches : Regex

/-- Go's `math.MaxInt64`, the literal `1<<63 - 1` from `walker.go`. -/
def maxInt64 : Int := 2 ^ 63 - 1

/-- The special characters escaped by Go `regexp.QuoteMeta`. -/
def goRegexSpecial (c : Char) : Bool :=
  c ∈ ['\\', '.', '+', '*', '?', '(', ')', '|', '[', ']', '\x7b', '\x7d', '^', '$']

/-- Model of Go `regexp.QuoteMeta`. -/
def goQuoteMeta (s : String) : String :=
  String.mk (s.data.foldr (fun c acc => if goRegexSpecial c then '\\' :: c :: acc else c :: acc) [])

/-- Model of Go `strings.ReplaceAll(s, string([a,b]), repl)` for a
two-character pattern: left-to-right, non-overlapping. -/
def replacePair (a b : Char) (repl : List Char) : List Char → List Char
  | [] => []
  | [c] => [c]
  | c :: d :: rest =>
    if c = a ∧ d = b then repl ++ replacePair a b repl rest
    else c :: replacePair a b repl (d :: rest)

/-- `GlobToRegex` from `finder.go`: quote all metacharacters, then rewrite
the escaped glob wildcards, then anchor. -/
def GlobToRegex (pattern : String) : String :=
  let q := goQuoteMeta pattern
  let s1 := String.mk (replacePair '\\' '*' ['.', '*'] q.data)
  let s2 := String.mk (replacePair '\\' '?' ['.'] s1.data)
  "^" ++ s2 ++ "$"

/-- The regex source `NewFileFinder` hands to `regexp.Compile` for the match
pattern: the glob translation, case-folded unless `caseSensitive`. -/
def finderRegexSource (caseSensitive : Bool) (pattern : String) : String :=
  if caseSensitive then GlobToRegex pattern else "(?i)" ++ GlobToRegex pattern

/-- The exclude-dir set as stored by both `NewFileFinder` revisions:
each configured name lowercased (`excludeDirs[strings.ToLower(dir)] = true`). -/
def mkExcludeDirs (dirs : List String) : List String := dirs.map goToLower

/-- The file-type set as stored: each configured extension lowercased. -/
def mkFileTypes (exts : List String) : List String := exts.map goToLower

/-- `NewFileFinder` of the map-options revision
(`src/find-everything/internal/finder/finder.go`, lines 43-104).  Exclude
patterns that fail to compile are silently skipped
(`if re, err := regexp.Compile(pattern); err == nil`). -/
def NewFileFinderMap (compile : RegexCompiler) (basePath pattern : String)
    (opts : FinderOptions) : Except String FileFinder :=
  match compile (finderRegexSource opts.caseSensitive pattern) with
  | none => .error "invalid pattern"
  | some patternRegex =>
    .ok { basePath := basePath
          excludeDirs := mkExcludeDirs opts.excludeDirs
          excludePatterns := opts.excludePatterns.filterMap compile
          fileTypes := mkFileTypes opts.fileTypes
          minSize := opts.minSize
          maxSize := opts.maxSize
          maxResults := opts.maxResults
          patternMatches := patternRegex }

/-- Sequential compilation of the exclude patterns in the `FinderOptions`
revision (`src/unnamed/part_004`, lines 59-67): the first compilation error
aborts construction. -/
def compileAll (compile : RegexCompiler) : List String → Except String (List Regex)
  | [] => .ok []
  | p :: ps =>
    match compile p with
    | none => .error ("invalid exclude pattern " ++ p)
    | some re =>
      match compileAll compile ps with
      | .error e => .error e
      | .ok rest => .ok (re :: rest)

/-- `NewFileFinder` of the `FinderOptions` revision
(`src/unnamed/part_004`, lines 48-105): an invalid exclude pattern is a
construction error. -/
def NewFileFinderOpts (compile : RegexCompiler) (basePath pattern : String)
    (opts : FinderOptions) : Except String FileFinder :=
  match compile (finderRegexSource opts.caseSensitive pattern) with
  | none => .error "invalid pattern"
  | some patternRegex =>
    match compileAll compile opts.excludePatterns with
    | .error e => .error e
    | .ok compiled =>
      .ok { basePath := basePath
            excludeDirs := mkExcludeDirs opts.excludeDirs
            excludePatterns := compiled
            fileTypes := mkFileTypes opts.fileTypes
            minSize := opts.minSize
            maxSize := opts.maxSize
            maxResults := opts.maxResults
            patternMatches := patternRegex }

/-- `FileFinder.ShouldExclude` (`finder.go`, lines 106-123): split the path
at the separator, lowercase each component and look it up in the exclude-dir
set; then try every exclude regex on the full path. -/
def ShouldExclude (ff : FileFinder) (path : String) : Bool :=
  (goSplit path).any (fun part => ff.excludeDirs.contains (goToLower part))
    || ff.excludePatterns.any (fun re => re path)

/-- `FileFinder.MatchesPattern` (`finder.go`, line 125-127). -/
def MatchesPattern (ff : FileFinder) (name : String) : Bool :=
  ff.patternMatches name

/-- `FileFinder.CheckFileType` (`finder.go`, lines 163-169). -/
def CheckFileType (ff : FileFinder) (filePath : String) : Bool :=
  if ff.fileTypes.isEmpty then true
  else ff.fileTypes.contains (goToLower (goExt filePath))

/-- The guard in `processDir` (`walker.go`, line 151) deciding whether the
size filter is consulted at all: `ff.minSize > 0 || ff.maxSize < (1<<63-1)`. -/
def sizeFilterActive (ff : FileFinder) : Bool :=
  ff.minSize > 0 || ff.maxSize < maxInt64

/-- `FileFinder.CheckFileSize` (`finder.go`, lines 155-161) expressed on the
stat outcome for the file (`none` = `os.Stat` failed): false on failure, else
the inclusive size-range test. -/
def CheckFileSizeStat (ff : FileFinder) (sz : Option Int) : Bool :=
  match sz with
  | none => false
  | some s => decide (ff.minSize ≤ s ∧ s ≤ ff.maxSize)

/-! ## The size cache (`finder.go`, `GetFileSize`, lines 129-153)

The mutable per-scan state relevant to `GetFileSize`: the `fileCache` map
(modelled as an association list with distinct keys — entries are only
inserted after a lookup miss) and the walker's `skippedDirs` counter, the
only warning-style counter `find-everything` has. -/

structure FinderCacheState where
  fileCache : List (String × Int)
  skippedDirs : Int
  deriving DecidableEq

/-- `FileFinder.GetFileSize`: cache lookup, then `os.Stat` (modelled by
`fs : String → Option Int`, the ambient filesystem), then insertion guarded
by the 10,000-entry capacity check. -/
def GetFileSize (fs : String → Option Int) (st : FinderCacheState)
    (filePath : String) : (Int × Bool) × FinderCacheState :=
  match st.fileCache.lookup filePath with
  | some size => ((size, true), st)
  | none =>
    match fs filePath with
    | none => ((0, false), st)
    | some size =>
      ((size, true),
        if st.fileCache.length < 10000 then
          { st with fileCache := (filePath, size) :: st.fileCache }
        else st)

/-- The result `GetFileSize` would produce with no cache at all: the bare
stat outcome. -/
def pureStat (fs : String → Option Int) (filePath : String) : Int × Bool :=
  match fs filePath with
  | none => (0, false)
  | some size => (size, true)

/-- Folding `GetFileSize` over a sequence of lookups, collecting the returned
values. -/
def runGetFileSizes (fs : String → Option Int) (st : FinderCacheState) :
    List String → List (Int × Bool) × FinderCacheState
  | [] => ([], st)
  | p :: ps =>
    let r := GetFileSize fs st p
    let rest := runGetFileSizes fs r.2 ps
    (r.1 :: rest.1, rest.2)

/-! ## The concurrent walker (`walker.go`)

The filesystem seen by `find-everything` is a tree of named entries; a file
carries the outcome `os.Stat` reports for it (`none` = stat fails).  A scan
is modelled as a nondeterministic transition system: the state holds the
pending directory jobs (the `dirQueue` contents plus jobs parked in overflow
goroutines plus jobs held by workers), the aggregated results, and the list
of directories whose `os.ReadDir` succeeded (`processed`).  One transition
processes one job, exactly as `processDir` does under a context that is
never cancelled; picking an arbitrary pending index models the scheduling
freedom of the worker pool, and results are compared as multisets, which
absorbs the worker-local batching (`flush`) since merging batches only
permutes the aggregate. -/

inductive FTree where
  | file (name : String) (stat : Option Int)
  | dir (name : String) (children : List FTree)

/-- The body of the entry loop of `processDir` (`walker.go`, lines 132-188),
run over a directory listing: returns the matched files, matched directories,
and the child-directory jobs enqueued, in listing order.  Cancellation never
fires (the claims using this model assume an uncancelled scan), so the
`ctx.Done()` select always falls through to the enqueue. -/
def procEntries (ff : FileFinder) (path : String) :
    List FTree → List String × List String × List (String × List FTree)
  | [] => ([], [], [])
  | e :: es =>
    let rest := procEntries ff path es
    match e with
    | .file n sz =>
      let fullPath := joinPath path n
      if ShouldExclude ff fullPath then rest
      else if MatchesPattern ff n && CheckFileType ff fullPath
          && (!sizeFilterActive ff || CheckFileSizeStat ff sz) then
        (fullPath :: rest.1, rest.2.1, rest.2.2)
      else rest
    | .dir n cs =>
      let fullPath := joinPath path n
      if ShouldExclude ff fullPath then rest
      else if MatchesPattern ff n then
        (rest.1, fullPath :: rest.2.1, (fullPath, cs) :: rest.2.2)
      else (rest.1, rest.2.1, (fullPath, cs) :: rest.2.2)

structure WalkState where
  pending : List (String × List FTree)
  files : List String
  dirs : List String
  processed : List String

/-- Process the pending job at index `i` (no-op when `i` is out of range):
the effect of one worker iteration of `FindFilesAndDirs` on the shared
state. -/
def procJob (ff : FileFinder) (s : WalkState) (i : Nat) : WalkState :=
  match s.pending[i]? with
  | none => s
  | some job =>
    let r := procEntries ff job.1 job.2
    { pending := s.pending.eraseIdx i ++ r.2.2
      files := s.files ++ r.1
      dirs := s.dirs ++ r.2.1
      processed := s.processed ++ [job.1] }

/-- One scheduling step of the worker pool. -/
inductive WalkStep (ff : FileFinder) : WalkState → WalkState → Prop
  | proc (s : WalkState) (i : Nat) : WalkStep ff s (procJob ff s i)

/-- The initial seed (`walker.go`, lines 96-100): the base path is job #1. -/
def initWalkState (rootPath : String) (entries : List FTree) : WalkState :=
  { pending := [(rootPath, entries)], files := [], dirs := [], processed := [] }

/-- States reachable by the worker pool from the seeded queue. -/
def WalkReachable (ff : FileFinder) (rootPath : String) (entries : List FTree)
    (s : WalkState) : Prop :=
  Relation.ReflTransGen (WalkStep ff) (initWalkState rootPath entries) s

/-! ### The sequential reference walk

Modelled from the spec: "the exact set obtainable by a naive sequential
recursive walk with the same filters" — a plain depth-first recursion that
applies the same pattern, type and size filters to every entry and descends
into every subdirectory (no exclusions, no cancellation). -/

mutual

def seqEntry (ff : FileFinder) (parent : String) :
    FTree → List String × List String
  | .file n sz =>
    let fullPath := joinPath parent n
    if MatchesPattern ff n && CheckFileType ff fullPath
        && (!sizeFilterActive ff || CheckFileSizeStat ff sz) then
      ([fullPath], [])
    else ([], [])
  | .dir n cs =>
    let fullPath := joinPath parent n
    let sub := seqEntries ff fullPath cs
    (sub.1, (if MatchesPattern ff n then [fullPath] else []) ++ sub.2)

def seqEntries (ff : FileFinder) (parent : String) :
    List FTree → List String × List String
  | [] => ([], [])
  | e :: es =>
    let r1 := seqEntry ff parent e
    let r2 := seqEntries ff parent es
    (r1.1 ++ r2.1, r1.2 ++ r2.2)

end

/-! ### The directories a full walk visits, listed once each -/

mutual

def visitEntry (parent : String) : FTree → List String
  | .file _ _ => []
  | .dir n cs => joinPath parent n :: visitEntries (joinPath parent n) cs

def visitEntries (parent : String) : List FTree → List String
  | [] => []
  | e :: es => visitEntry parent e ++ visitEntries parent es

end

/-- Every directory a sequential walk of the tree visits (the root first),
each listed exactly once per node of the tree. -/
def visitList (rootPath : String) (entries : List FTree) : List String :=
  rootPath :: visitEntries rootPath entries

/-! ## The `check-folder-size` scanner (`internal/scanner/scanner.go`)

Its filesystem trees additionally contain symlink entries.  `filepath.WalkDir`
never follows symlinks while descending (Go library guarantee), so a symlink
is a leaf of the directory tree; `statFollow` is what `os.Stat` — which does
follow the link — would report for it (`none` = broken link / stat error).
A file's `stat` field is what `DirEntry.Info`/`os.Stat` reports. -/

inductive STree where
  | file (name : String) (stat : Option Int)
  | dir (name : String) (children : List STree)
  | symlink (name : String) (statFollow : Option Int)

def STree.name : STree → String
  | .file n _ => n
  | .dir n _ => n
  | .symlink n _ => n

mutual

/-- The `WalkDir` callback of `getFolderSize` (`scanner.go`, lines 188-236)
applied to one entry at structural depth `depth` below the walk root
(immediate children have depth 1), with an uncancelled context.  Returns
`(bytes added, warnings added)`.  Check order follows the source: symlink
skip, then depth limit (directories only), then name exclusion, then the
file-size accumulation (an `Info` error counts one warning). -/
def walkEntry (excl : List String) (maxDepth : Int) (depth : Int) :
    STree → Int × Int
  | .symlink _ _ => (0, 0)
  | .file n sz =>
    if excl.contains n then (0, 0)
    else
      match sz with
      | none => (0, 1)
      | some s => (s, 0)
  | .dir n cs =>
    if maxDepth > 0 && depth > maxDepth then (0, 0)
    else if excl.contains n then (0, 0)
    else walkEntries excl maxDepth (depth + 1) cs

def walkEntries (excl : List String) (maxDepth : Int) (depth : Int) :
    List STree → Int × Int
  | [] => (0, 0)
  | e :: es =>
    let r1 := walkEntry excl maxDepth depth e
    let r2 := walkEntries excl maxDepth depth es
    (r1.1 + r2.1, r1.2 + r2.2)

end

/-- `getFolderSize` on a directory whose listing is `cs`: the root itself is
skipped (`path == folderPath`), its entries are walked at depth 1. -/
def getFolderSize (excl : List String) (maxDepth : Int) (cs : List STree) :
    Int × Int :=
  walkEntries excl maxDepth 1 cs

/-- Erasing every symlink entry from a listing (recursively). -/
def pruneSymlinks : List STree → List STree
  | [] => []
  | .symlink _ _ :: es => pruneSymlinks es
  | .file n sz :: es => .file n sz :: pruneSymlinks es
  | .dir n cs :: es => .dir n (pruneSymlinks cs) :: pruneSymlinks es

/-- The per-item work of the `GetSizesOfSubfolders` worker loop
(`scanner.go`, lines 109-118): directories are measured by `getFolderSize`,
anything else by `os.Stat` (which follows symlinks; a stat error adds one
warning and reports size 0). -/
def itemSize (excl : List String) (maxDepth : Int) : STree → Int × Int
  | .dir _ cs => getFolderSize excl maxDepth cs
  | .file _ sz =>
    match sz with
    | some s => (s, 0)
    | none => (0, 1)
  | .symlink _ st =>
    match st with
    | some s => (s, 0)
    | none => (0, 1)

structure ScanResultM where
  sizes : List (String × Int)
  warningCount : Int
  deriving DecidableEq

/-- `GetSizesOfSubfolders` (`scanner.go`, lines 49-181) on an uncancelled
context, with the root already resolved: if `os.ReadDir` fails — in
particular when the root is not a directory — it reports the error and
returns an empty map with warning count 1; otherwise the immediate entries
whose names are not in the exclude list (exact, case-sensitive comparison)
are each measured.  The worker pool only reorders the per-item work, so the
aggregate is modelled in listing order. -/
def GetSizesOfSubfolders (excl : List String) (maxDepth : Int)
    (root : STree) : ScanResultM :=
  match root with
  | .dir _ entries =>
    let kept := entries.filter (fun e => !excl.contains e.name)
    { sizes := kept.map (fun e => (e.name, (itemSize excl maxDepth e).1))
      warningCount := (kept.map (fun e => (itemSize excl maxDepth e).2)).sum }
  | _ => { sizes := [], warningCount := 1 }

/-- The configuration-class failure of the `check-folder-size` command. -/
inductive CmdError where
  | pathNotExist
  deriving DecidableEq

/-- The root-path handling of the `check-folder-size` CLI entry point
(`cmd/root.go`, lines 87-124): `os.Stat` the resolved path, fail fast when
it does not exist (`root = none`), otherwise hand whatever the path is —
directory or not — to the scanner.  Flag parsing, screen clearing, sorting
and output formatting are out of scope. -/
def runCheckFolderSize (excl : List String) (maxDepth : Int)
    (root : Option STree) : Except CmdError ScanResultM :=
  match root with
  | none => .error .pathNotExist
  | some t => .ok (GetSizesOfSubfolders excl maxDepth t)

/-! ## The bounded work queue with overflow fallback (`walker.go`, lines 164-187)

An abstract transition system for the scheduler shape of
`FindFilesAndDirs`: a bounded channel (`queued`, capacity `cap`), the jobs
parked in detached overflow-sender goroutines (`overflow`), and the jobs
currently held by the `workers` workers (`working`).  A worker that needs to
enqueue a child never blocks: the non-blocking send (`select { case dirQueue
<- fullPath: default: go func... }`) puts the child on the channel when
there is room and otherwise hands it to a detached goroutine, so `finish`
(one whole `processDir` call) is always enabled for a busy worker.  Jobs are
abstract (`α`) and `children j` are the subdirectory jobs `processDir j`
enqueues. -/

structure QueueState (α : Type) where
  queued : List α
  overflow : List α
  working : List α

/-- Route one child: the non-blocking send, then the detached blocking
sender as fallback. -/
def enqueueChild {α : Type} (cap : Nat) (s : QueueState α) (j : α) : QueueState α :=
  if s.queued.length < cap then { s with queued := s.queued ++ [j] }
  else { s with overflow := s.overflow ++ [j] }

/-- Enqueue all children a finished job produces, in order. -/
def enqueueAll {α : Type} (cap : Nat) (s : QueueState α) (js : List α) : QueueState α :=
  js.foldl (enqueueChild cap) s

inductive QueueStep {α : Type} (cap workers : Nat) (children : α → List α) :
    QueueState α → QueueState α → Prop
  /-- A free worker receives a job from the channel. -/
  | dequeue (s : QueueState α) (j : α) (rest : List α)
      (hq : s.queued = j :: rest) (hw : s.working.length < workers) :
      QueueStep cap workers children s
        { s with queued := rest, working := j :: s.working }
  /-- A busy worker runs `processDir` to completion on the job at index `i`
  of `working`, routing each child through the non-blocking enqueue, and
  becomes free. -/
  | finish (s : QueueState α) (i : Nat) (j : α) (hj : s.working[i]? = some j) :
      QueueStep cap workers children s
        (enqueueAll cap { s with working := s.working.eraseIdx i } (children j))
  /-- A detached overflow goroutine completes its blocking send (possible
  exactly when the channel has room). -/
  | overflowSend (s : QueueState α) (i : Nat) (j : α)
      (hj : s.overflow[i]? = some j) (hroom : s.queued.length < cap) :
      QueueStep cap workers children s
        { s with overflow := s.overflow.eraseIdx i, queued := s.queued ++ [j] }

/-- The scan is over: nothing queued, no overflow sender pending, every
worker idle (the in-flight count of `processingWg` is zero and the monitor
goroutine closes the channel). -/
def QueueDone {α : Type} (s : QueueState α) : Prop :=
  s.queued = [] ∧ s.overflow = [] ∧ s.working = []

/-- The structural invariant of the machine: the channel respects its
capacity and there are at most `workers` busy workers. -/
def QueueInv {α : Type} (cap workers : Nat) (s : QueueState α) : Prop :=
  s.queued.length ≤ cap ∧ s.working.length ≤ workers

/-- The machine seeded with the root job on the channel. -/
def initQueueState {α : Type} (root : α) : QueueState α :=
  { queued := [root], overflow := [], working := [] }

def QueueReachable {α : Type} (cap workers : Nat) (children : α → List α)
    (root : α) (s : QueueState α) : Prop :=
  Relation.ReflTransGen (QueueStep cap workers children) (initQueueState root) s

/-! ## Derived notions used by the statements and proofs -/

def FTree.name : FTree → String
  | .file n _ => n
  | .dir n _ => n

/-- All matched files a set of pending jobs will still contribute, counted
with multiplicity (the sequential walk of each job). -/
def jobsFiles (ff : FileFinder) (jobs : List (String × List FTree)) : Multiset String :=
  (jobs.map (fun j => ((seqEntries ff j.1 j.2).1 : Multiset String))).sum

/-- All matched directories a set of pending jobs will still contribute. -/
def jobsDirs (ff : FileFinder) (jobs : List (String × List FTree)) : Multiset String :=
  (jobs.map (fun j => ((seqEntries ff j.1 j.2).2 : Multiset String))).sum

/-- All directories a set of pending jobs will still visit (each job's own
path included). -/
def jobsVisits (jobs : List (String × List FTree)) : Multiset String :=
  (jobs.map (fun j => ((visitList j.1 j.2) : Multiset String))).sum

/-- Exclusion-safety invariant of the walker state: every enqueued job
passed the exclusion filter (or is the root seed), and everything recorded
or processed is either the root or passed the filter. -/
def CleanInv (ff : FileFinder) (rootPath : String) (s : WalkState) : Prop :=
  (∀ j ∈ s.pending, j.1 = rootPath ∨ ShouldExclude ff j.1 = false)
    ∧ (∀ p ∈ s.files, ShouldExclude ff p = false)
    ∧ (∀ p ∈ s.dirs, ShouldExclude ff p = false)
    ∧ (∀ p ∈ s.processed, p = rootPath ∨ ShouldExclude ff p = false)

/-- `p` lies in the subtree of (or is) a directory named `d`, read off the
path: some separator-delimited component of `p` equals `d` up to case. -/
def hasComponentCI (d p : String) : Bool :=
  (goSplit p).any (fun part => goToLower part == goToLower d)

/-- The exclusion decision exactly as the claim words it: the name is in the
exclude-name set under case-sensitive exact string comparison, or the full
path matches a configured exclude regex. -/
def specShouldExcludeLiteral (excludeNames : List String) (regexes : List Regex)
    (path : String) : Bool :=
  excludeNames.contains path || regexes.any (fun re => re path)

/-- Discriminator for constructor outcomes (the `FileFinder` payload holds
functions, so plain equality on the `Except` is not decidable). -/
def ctorOk : Except String FileFinder → Bool
  | .ok _ => true
  | .error _ => false

/-! ## Concrete fixtures used by the witnesses and counterexamples -/

/-- A matches-everything finder with no exclusions and no size/type filter:
the compiled form of pattern `"*"` with default options. -/
def ffAll : FileFinder :=
  { basePath := "r", excludeDirs := [], excludePatterns := [], fileTypes := []
    minSize := 0, maxSize := maxInt64, maxResults := 10000
    patternMatches := fun _ => true }

/-- A matches-everything finder that excludes directories named `ex`
(stored lowercased, as `NewFileFinder` stores them). -/
def ffEx : FileFinder :=
  { basePath := "r", excludeDirs := mkExcludeDirs ["ex"], excludePatterns := []
    fileTypes := [], minSize := 0, maxSize := maxInt64, maxResults := 10000
    patternMatches := fun _ => true }

/-- A finder whose configured exclude-name list is the mixed-case `["Foo"]`. -/
def ffFoo : FileFinder :=
  { basePath := "r", excludeDirs := mkExcludeDirs ["Foo"], excludePatterns := []
    fileTypes := [], minSize := 0, maxSize := maxInt64, maxResults := 10000
    patternMatches := fun _ => true }

/-- Fixture tree: one matching file and one (empty) subdirectory. -/
def treeW : List FTree := [.file "a" (some 5), .dir "d" []]

/-- Fixture tree containing an excluded directory with content: the subtree
under `ex` must never be visited. -/
def treeEx : List FTree := [.file "a" (some 5), .dir "ex" [.file "c" (some 7)]]

/-- Model of `regexp.Compile` restricted to the inputs exercised below:
the pattern `"["` (missing closing bracket) fails to compile, everything
else compiles; the matcher payload is irrelevant to the construction
control flow under test. -/
def compileEx : RegexCompiler :=
  fun s => if s = "[" then none else some (fun _ => false)

/-- Options whose exclude-pattern list contains the invalid regex `"["`. -/
def optsBadExclude : FinderOptions :=
  { caseSensitive := true, maxWorkers := 4, excludeDirs := []
    excludePatterns := ["["], fileTypes := [], minSize := 0
    maxSize := maxInt64, showProgress := false, maxResults := 10000 }

/-- A filesystem on which every `os.Stat` call fails. -/
def fsFail : String → Option Int := fun _ => none

/-- Fixture listing under a contaminated base path. -/
def entriesC10 : List FTree := [.file "f" (some 1)]

/-- The state after the worker pool processes the root job seeded with the
contaminated base path `"a/ex"`. -/
def wStateC10 : WalkState := procJob ffEx (initWalkState "a/ex" entriesC10) 0

/-- The state after the worker pool processes the root job of `treeEx`
(whose `ex` subdirectory is excluded and hence not enqueued). -/
def wStateC2 : WalkState := procJob ffEx (initWalkState "r" treeEx) 0

/-- The terminal state of a two-step schedule on the fixture tree `treeW`:
the root job, then the enqueued child directory. -/
def wStateC1 : WalkState :=
  procJob ffAll (procJob ffAll (initWalkState "r" treeW) 0) 0

/-! # Theorems -/

/-! ## Path-splitting lemmas -/

/-- `splitSep` never returns the empty list. -/
theorem splitSep_ne_nil (cs : List Char) : splitSep cs ≠ [] := by
  induction cs with
  | nil => simp [splitSep]
  | cons c cs ih =>
    by_cases h : c = '/'
    · simp [splitSep, h]
    · simp only [splitSep, if_neg h]
      cases hcs : splitSep cs with
      | nil => simp
      | cons h t => simp

/-- Splitting `p ++ '/' :: n` where the name `n` contains no separator
yields the components of `p` followed by `n`. -/
theorem splitSep_append (p n : List Char) (hn : '/' ∉ n) :
    splitSep (p ++ '/' :: n) = splitSep p ++ [n] := by
  induction p with
  | nil =>
    simp only [List.nil_append, splitSep]
    have hsn : splitSep n = [n] := by
      induction n with
      | nil => simp [splitSep]
      | cons c cs ih =>
        have hc : c ≠ '/' := by
          intro h; exact hn (h ▸ List.mem_cons_self c cs)
        have hcs : '/' ∉ cs := fun h => hn (List.mem_cons_of_mem _ h)
        simp only [splitSep, if_neg hc, ih hcs]
    simp [hsn]
  | cons c cs ih =>
    by_cases h : c = '/'
    · simp [splitSep, h, ih]
    · simp only [List.cons_append, splitSep, if_neg h, List.append_eq]
      rw [ih]
      cases hcs : splitSep cs with
      | nil => exact absurd hcs (splitSep_ne_nil cs)
      | cons h t => simp

/-- The components of a joined path are the components of the directory
followed by the entry name. -/
theorem goSplit_joinPath (p n : String) (hn : '/' ∉ n.data) :
    goSplit (joinPath p n) = goSplit p ++ [n] := by
  have : (joinPath p n).data = p.data ++ '/' :: n.data := by
    simp [joinPath, String.data_append]
  simp only [goSplit, this, splitSep_append p.data n.data hn, List.map_append,
    List.map_cons, List.map_nil]

/-! ## The exclusion decision -/

/-- With an empty exclude set and no exclude regexes, nothing is excluded. -/
theorem shouldExclude_of_empty (ff : FileFinder) (h1 : ff.excludeDirs = [])
    (h2 : ff.excludePatterns = []) (p : String) : ShouldExclude ff p = false := by
  simp [ShouldExclude, h1, h2]

/-- Characterization of `ShouldExclude` over a finder built from the
configured exclude-name list `l`: a path is excluded iff some
separator-delimited component of it equals some configured name up to case,
or some exclude regex matches the whole path. -/
theorem shouldExclude_char (bp : String) (l : List String) (regexes : List Regex)
    (ft : List String) (mn mx mr : Int) (pm : Regex) (p : String) :
    ShouldExclude ⟨bp, mkExcludeDirs l, regexes, ft, mn, mx, mr, pm⟩ p = true ↔
      (∃ part ∈ goSplit p, ∃ d ∈ l, goToLower part = goToLower d)
        ∨ ∃ re ∈ regexes, re p = true := by
  simp only [ShouldExclude, mkExcludeDirs, Bool.or_eq_true, List.any_eq_true]
  constructor
  · rintro (⟨part, hpart, hmem⟩ | ⟨re, hre, hm⟩)
    · rw [List.elem_iff, List.mem_map] at hmem
      obtain ⟨d, hd, hld⟩ := hmem
      exact Or.inl ⟨part, hpart, d, hd, hld.symm⟩
    · exact Or.inr ⟨re, hre, hm⟩
  · rintro (⟨part, hpart, d, hd, hld⟩ | ⟨re, hre, hm⟩)
    · refine Or.inl ⟨part, hpart, ?_⟩
      rw [List.elem_iff, List.mem_map]
      exact ⟨d, hd, hld.symm⟩
    · exact Or.inr ⟨re, hre, hm⟩

/-- Membership of an excluded path component forces exclusion. -/
theorem shouldExclude_of_component (bp : String) (l : List String)
    (regexes : List Regex) (ft : List String) (mn mx mr : Int) (pm : Regex)
    (p d : String) (hd : d ∈ l) (part : String) (hpart : part ∈ goSplit p)
    (heq : goToLower part = goToLower d) :
    ShouldExclude ⟨bp, mkExcludeDirs l, regexes, ft, mn, mx, mr, pm⟩ p = true :=
  (shouldExclude_char bp l regexes ft mn mx mr pm p).2
    (Or.inl ⟨part, hpart, d, hd, heq⟩)

/-- C3 (counterexample): with configured exclude list `["Foo"]` and no
exclude regexes, the path `"foo"` — a bare name, not equal to any configured
name under case-sensitive comparison — is nevertheless excluded by
`ShouldExclude`, because both sides are lowercased before comparison.  So
the exclusion decision is not the case-sensitive exact-match test the claim
states. -/
theorem shouldExclude_case_sensitivity_counterexample :
    ShouldExclude ffFoo "foo" = true
      ∧ specShouldExcludeLiteral ["Foo"] [] "foo" = false := by
  exact ⟨by decide, by decide⟩

/-- C3 (amended): `ShouldExclude` returns true iff some separator-delimited
component of the full path equals some configured exclude name under
case-insensitive comparison, or the full path matches at least one
configured exclude regex. -/
theorem shouldExclude_characterization (bp : String) (l : List String)
    (regexes : List Regex) (ft : List String) (mn mx mr : Int) (pm : Regex)
    (p : String) :
    ShouldExclude ⟨bp, mkExcludeDirs l, regexes, ft, mn, mx, mr, pm⟩ p = true ↔
      (∃ part ∈ goSplit p, ∃ d ∈ l, goToLower part = goToLower d)
        ∨ ∃ re ∈ regexes, re p = true :=
  shouldExclude_char bp l regexes ft mn mx mr pm p

/-- If every entry of a listing is excluded, `processDir` reports nothing
and enqueues nothing. -/
theorem procEntries_all_excluded (ff : FileFinder) (p : String) (es : List FTree)
    (h : ∀ e ∈ es, ShouldExclude ff (joinPath p (FTree.name e)) = true) :
    procEntries ff p es = ([], [], []) := by
  induction es with
  | nil => rfl
  | cons e es ih =>
    have hrest : procEntries ff p es = ([], [], []) :=
      ih (fun x hx => h x (List.mem_cons_of_mem _ hx))
    have he := h e (List.mem_cons_self e es)
    cases e with
    | file n sz =>
      simp only [FTree.name] at he
      simp [procEntries, he, hrest]
    | dir n cs =>
      simp only [FTree.name] at he
      simp [procEntries, he, hrest]

/-- One walker step preserves the all-excluded-root invariant: nothing
reported, and only the root job ever pending. -/
theorem contaminatedInv_step (ff : FileFinder) (rootPath : String)
    (entries : List FTree)
    (hproc : procEntries ff rootPath entries = ([], [], []))
    (s s2 : WalkState) (hstep : WalkStep ff s s2)
    (h : s.files = [] ∧ s.dirs = [] ∧ ∀ j ∈ s.pending, j = (rootPath, entries)) :
    s2.files = [] ∧ s2.dirs = [] ∧ ∀ j ∈ s2.pending, j = (rootPath, entries) := by
  obtain ⟨hf, hd, hp⟩ := h
  cases hstep with
  | proc i =>
    cases hj : s.pending[i]? with
    | none => simp only [procJob, hj]; exact ⟨hf, hd, hp⟩
    | some job =>
      have hjob : job = (rootPath, entries) := hp job (List.getElem?_mem hj)
      subst hjob
      refine ⟨?_, ?_, ?_⟩
      · simp [procJob, hj, hproc, hf]
      · simp [procJob, hj, hproc, hd]
      · intro j hjmem
        simp only [procJob, hj, hproc] at hjmem
        exact hp j (List.eraseIdx_subset _ _ (by simpa using hjmem))

/-- C10: componentwise, case-insensitive exclusion — `ShouldExclude` is true
exactly when some separator-delimited component of the full path equals a
configured exclude name up to case or some exclude regex matches the full
path — and, consequently, when the scan's base path itself contains a
component equal to an excluded name (up to case), every entry under it is
excluded, so every state the worker pool can reach reports no files and no
directories. -/
theorem shouldExclude_components_and_contaminated_base (bp : String)
    (l : List String) (regexes : List Regex) (ft : List String)
    (mn mx mr : Int) (pm : Regex) :
    (∀ p, ShouldExclude ⟨bp, mkExcludeDirs l, regexes, ft, mn, mx, mr, pm⟩ p = true ↔
        (∃ part ∈ goSplit p, ∃ d ∈ l, goToLower part = goToLower d)
          ∨ ∃ re ∈ regexes, re p = true)
    ∧ (∀ (rootPath : String) (entries : List FTree) (s : WalkState),
        (∃ part ∈ goSplit rootPath, ∃ d ∈ l, goToLower part = goToLower d) →
        (∀ e ∈ entries, '/' ∉ (FTree.name e).data) →
        WalkReachable ⟨bp, mkExcludeDirs l, regexes, ft, mn, mx, mr, pm⟩
          rootPath entries s →
        s.files = [] ∧ s.dirs = []) := by
  refine ⟨shouldExclude_char bp l regexes ft mn mx mr pm, ?_⟩
  intro rootPath entries s hcon hclean hreach
  obtain ⟨part, hpart, d, hd, heq⟩ := hcon
  have hexcl : ∀ e ∈ entries,
      ShouldExclude ⟨bp, mkExcludeDirs l, regexes, ft, mn, mx, mr, pm⟩
        (joinPath rootPath (FTree.name e)) = true := by
    intro e he
    refine shouldExclude_of_component bp l regexes ft mn mx mr pm _ d hd part ?_ heq
    rw [goSplit_joinPath rootPath (FTree.name e) (hclean e he)]
    exact List.mem_append_left _ hpart
  have hproc := procEntries_all_excluded
    ⟨bp, mkExcludeDirs l, regexes, ft, mn, mx, mr, pm⟩ rootPath entries hexcl
  have hinv : s.files = [] ∧ s.dirs = []
      ∧ ∀ j ∈ s.pending, j = (rootPath, entries) := by
    induction hreach with
    | refl =>
      refine ⟨rfl, rfl, ?_⟩
      intro j hj
      simpa [initWalkState] using hj
    | tail hab hbc ih => exact contaminatedInv_step _ _ _ hproc _ _ hbc ih
  exact ⟨hinv.1, hinv.2.1⟩

/-- C10 witness: base path `"a/ex"` contains the excluded component `ex`;
after the worker pool processes the seeded root job, the reachable state
reports nothing. -/
theorem shouldExclude_contaminated_base_witness :
    wStateC10.files = [] ∧ wStateC10.dirs = [] :=
  (shouldExclude_components_and_contaminated_base "r" ["ex"] [] [] 0 maxInt64
      10000 (fun _ => true)).2 "a/ex" entriesC10 wStateC10
    (by decide) (by decide)
    (Relation.ReflTransGen.single (WalkStep.proc _ 0))

/-- Everything `processDir` reports or enqueues passed the exclusion
filter. -/
theorem procEntries_clean (ff : FileFinder) (p : String) (es : List FTree) :
    (∀ q ∈ (procEntries ff p es).1, ShouldExclude ff q = false)
    ∧ (∀ q ∈ (procEntries ff p es).2.1, ShouldExclude ff q = false)
    ∧ (∀ j ∈ (procEntries ff p es).2.2, ShouldExclude ff j.1 = false) := by
  induction es with
  | nil => simp [procEntries]
  | cons e es ih =>
    obtain ⟨ihf, ihd, ihj⟩ := ih
    have hjpair : ∀ (a : String) (b : List FTree),
        (a, b) ∈ (procEntries ff p es).2.2 → ShouldExclude ff a = false :=
      fun a b hab => ihj (a, b) hab
    cases e with
    | file n sz =>
      by_cases hex : ShouldExclude ff (joinPath p n) = true
      · simpa [procEntries, hex] using ⟨ihf, ihd, hjpair⟩
      · have hex2 : ShouldExclude ff (joinPath p n) = false := by simpa using hex
        by_cases hc : (MatchesPattern ff n && CheckFileType ff (joinPath p n)
            && (!sizeFilterActive ff || CheckFileSizeStat ff sz)) = true
        · refine ⟨?_, ?_, ?_⟩ <;> simp only [procEntries, hex2, hc] <;> simp
          · exact ⟨hex2, ihf⟩
          · exact ihd
          · exact hjpair
        · have hc2 : (MatchesPattern ff n && CheckFileType ff (joinPath p n)
              && (!sizeFilterActive ff || CheckFileSizeStat ff sz)) = false := by
            simpa using hc
          simpa [procEntries, hex2, hc2] using ⟨ihf, ihd, hjpair⟩
    | dir n cs =>
      by_cases hex : ShouldExclude ff (joinPath p n) = true
      · simpa [procEntries, hex] using ⟨ihf, ihd, hjpair⟩
      · have hex2 : ShouldExclude ff (joinPath p n) = false := by simpa using hex
        by_cases hm : MatchesPattern ff n = true
        · refine ⟨?_, ?_, ?_⟩ <;> simp only [procEntries, hex2, hm] <;> simp
          · exact ihf
          · exact ⟨hex2, ihd⟩
          · exact ⟨hex2, hjpair⟩
        · have hm2 : MatchesPattern ff n = false := by simpa using hm
          refine ⟨?_, ?_, ?_⟩ <;> simp only [procEntries, hex2, hm2] <;> simp
          · exact ihf
          · exact ihd
          · exact ⟨hex2, hjpair⟩

/-- One walker step preserves the exclusion-safety invariant. -/
theorem cleanInv_step (ff : FileFinder) (rootPath : String) (s s2 : WalkState)
    (hstep : WalkStep ff s s2) (hinv : CleanInv ff rootPath s) :
    CleanInv ff rootPath s2 := by
  obtain ⟨hpend, hfiles, hdirs, hprocd⟩ := hinv
  cases hstep with
  | proc i =>
    cases hj : s.pending[i]? with
    | none => simp only [procJob, hj]; exact ⟨hpend, hfiles, hdirs, hprocd⟩
    | some job =>
      obtain ⟨hcf, hcd, hcj⟩ := procEntries_clean ff job.1 job.2
      refine ⟨?_, ?_, ?_, ?_⟩
      · intro j hjmem
        simp only [procJob, hj, List.mem_append] at hjmem
        rcases hjmem with hjmem | hjmem
        · exact hpend j (List.eraseIdx_subset _ _ hjmem)
        · exact Or.inr (hcj j hjmem)
      · intro q hq
        simp only [procJob, hj, List.mem_append] at hq
        rcases hq with hq | hq
        · exact hfiles q hq
        · exact hcf q hq
      · intro q hq
        simp only [procJob, hj, List.mem_append] at hq
        rcases hq with hq | hq
        · exact hdirs q hq
        · exact hcd q hq
      · intro q hq
        simp only [procJob, hj, List.mem_append, List.mem_singleton] at hq
        rcases hq with hq | hq
        · exact hprocd q hq
        · exact hq ▸ hpend job (List.getElem?_mem hj)

/-- Every reachable walker state satisfies the exclusion-safety invariant. -/
theorem cleanInv_reachable (ff : FileFinder) (rootPath : String)
    (entries : List FTree) (s : WalkState)
    (hreach : WalkReachable ff rootPath entries s) :
    CleanInv ff rootPath s := by
  induction hreach with
  | refl =>
    refine ⟨?_, ?_, ?_, ?_⟩ <;> intro x hx <;> simp [initWalkState] at hx
    subst hx
    exact Or.inl rfl
  | tail hab hbc ih => exact cleanInv_step ff rootPath _ _ hbc ih

/-- A path with a component equal (up to case) to a configured exclude name
is excluded. -/
theorem hasComponent_excluded (bp : String) (l : List String)
    (regexes : List Regex) (ft : List String) (mn mx mr : Int) (pm : Regex)
    (d : String) (hd : d ∈ l) (q : String) (hq : hasComponentCI d q = true) :
    ShouldExclude ⟨bp, mkExcludeDirs l, regexes, ft, mn, mx, mr, pm⟩ q = true := by
  simp only [hasComponentCI, List.any_eq_true] at hq
  obtain ⟨part, hpart, heq⟩ := hq
  exact shouldExclude_of_component bp l regexes ft mn mx mr pm q d hd part hpart
    (by simpa using heq)

/-- C2: a directory name `d` in the configured exclude set never appears in
the results, and its whole subtree is never visited: in every reachable
state of the concurrent walk, no reported file or directory path and no
processed (ReadDir-ed) path other than the root seed has any
separator-delimited component equal to `d` up to case — in particular
neither the excluded directory itself nor anything inside its subtree, all
of whose paths contain that component, is ever reported or traversed. -/
theorem excluded_dir_subtree_never_visited (bp : String) (l : List String)
    (regexes : List Regex) (ft : List String) (mn mx mr : Int) (pm : Regex)
    (d : String) (hd : d ∈ l) (rootPath : String) (entries : List FTree)
    (s : WalkState)
    (hreach : WalkReachable ⟨bp, mkExcludeDirs l, regexes, ft, mn, mx, mr, pm⟩
      rootPath entries s) :
    (∀ q ∈ s.files, hasComponentCI d q = false)
    ∧ (∀ q ∈ s.dirs, hasComponentCI d q = false)
    ∧ (∀ q ∈ s.processed, q = rootPath ∨ hasComponentCI d q = false) := by
  obtain ⟨hpend, hfiles, hdirs, hprocd⟩ := cleanInv_reachable _ _ _ _ hreach
  have key : ∀ q, ShouldExclude ⟨bp, mkExcludeDirs l, regexes, ft, mn, mx, mr, pm⟩
      q = false → hasComponentCI d q = false := by
    intro q hq
    by_cases hcomp : hasComponentCI d q = true
    · rw [hasComponent_excluded bp l regexes ft mn mx mr pm d hd q hcomp] at hq
      exact absurd hq (by simp)
    · simpa using hcomp
  refine ⟨fun q hq => key q (hfiles q hq), fun q hq => key q (hdirs q hq),
    fun q hq => ?_⟩
  rcases hprocd q hq with h | h
  · exact Or.inl h
  · exact Or.inr (key q h)

/-- C2 witness: with exclude set `["ex"]` and the fixture tree containing an
`ex` subtree, the state after the root job is processed reports nothing from
the excluded subtree and never traversed it. -/
theorem excluded_dir_subtree_never_visited_witness :
    (∀ q ∈ wStateC2.files, hasComponentCI "ex" q = false)
    ∧ (∀ q ∈ wStateC2.dirs, hasComponentCI "ex" q = false)
    ∧ (∀ q ∈ wStateC2.processed, q = "r" ∨ hasComponentCI "ex" q = false) :=
  excluded_dir_subtree_never_visited "r" ["ex"] [] [] 0 maxInt64 10000
    (fun _ => true) "ex" (by decide) "r" treeEx wStateC2
    (Relation.ReflTransGen.single (WalkStep.proc _ 0))

/-! ## Completeness of the concurrent walk (refinement of the sequential walk) -/

theorem coe_append (l1 l2 : List String) :
    ((l1 ++ l2 : List String) : Multiset String) = ↑l1 + ↑l2 := rfl

theorem coe_cons (a : String) (l : List String) :
    ((a :: l : List String) : Multiset String) = a ::ₘ ↑l := rfl

/-- Extracting one indexed summand from a sum over a list. -/
theorem sum_map_extract {α M : Type} [AddCommMonoid M] (f : α → M) :
    ∀ (l : List α) (i : Nat) (j : α), l[i]? = some j →
      (l.map f).sum = f j + ((l.eraseIdx i).map f).sum := by
  intro l
  induction l with
  | nil => intro i j h; simp at h
  | cons a t ih =>
    intro i j h
    cases i with
    | zero =>
      simp only [List.getElem?_cons_zero, Option.some.injEq] at h
      subst h
      simp [List.eraseIdx_cons_zero]
    | succ i =>
      simp only [List.getElem?_cons_succ] at h
      rw [List.eraseIdx_cons_succ]
      simp only [List.map_cons, List.sum_cons, ih i j h]
      exact add_left_comm _ _ _

theorem jobsFiles_append (ff : FileFinder) (l1 l2 : List (String × List FTree)) :
    jobsFiles ff (l1 ++ l2) = jobsFiles ff l1 + jobsFiles ff l2 := by
  simp [jobsFiles]

theorem jobsDirs_append (ff : FileFinder) (l1 l2 : List (String × List FTree)) :
    jobsDirs ff (l1 ++ l2) = jobsDirs ff l1 + jobsDirs ff l2 := by
  simp [jobsDirs]

theorem jobsVisits_append (l1 l2 : List (String × List FTree)) :
    jobsVisits (l1 ++ l2) = jobsVisits l1 + jobsVisits l2 := by
  simp [jobsVisits]

theorem jobsFiles_cons (ff : FileFinder) (job : String × List FTree)
    (l : List (String × List FTree)) :
    jobsFiles ff (job :: l)
      = ((seqEntries ff job.1 job.2).1 : Multiset String) + jobsFiles ff l := by
  simp [jobsFiles]

theorem jobsDirs_cons (ff : FileFinder) (job : String × List FTree)
    (l : List (String × List FTree)) :
    jobsDirs ff (job :: l)
      = ((seqEntries ff job.1 job.2).2 : Multiset String) + jobsDirs ff l := by
  simp [jobsDirs]

theorem jobsVisits_cons (job : String × List FTree)
    (l : List (String × List FTree)) :
    jobsVisits (job :: l)
      = ((visitList job.1 job.2) : Multiset String) + jobsVisits l := by
  simp [jobsVisits]

theorem jobsFiles_extract (ff : FileFinder) (l : List (String × List FTree))
    (i : Nat) (job : String × List FTree) (hj : l[i]? = some job) :
    jobsFiles ff l = ((seqEntries ff job.1 job.2).1 : Multiset String)
      + jobsFiles ff (l.eraseIdx i) :=
  sum_map_extract _ l i job hj

theorem jobsDirs_extract (ff : FileFinder) (l : List (String × List FTree))
    (i : Nat) (job : String × List FTree) (hj : l[i]? = some job) :
    jobsDirs ff l = ((seqEntries ff job.1 job.2).2 : Multiset String)
      + jobsDirs ff (l.eraseIdx i) :=
  sum_map_extract _ l i job hj

theorem jobsVisits_extract (l : List (String × List FTree))
    (i : Nat) (job : String × List FTree) (hj : l[i]? = some job) :
    jobsVisits l = ((visitList job.1 job.2) : Multiset String)
      + jobsVisits (l.eraseIdx i) :=
  sum_map_extract _ l i job hj

/-- With no exclusion rules, one `processDir` call accounts exactly for the
sequential walk of its directory: the entries it reports plus what its
enqueued child jobs will still produce equal the sequential results, and the
child jobs will visit exactly the subdirectories below it. -/
theorem procEntries_decomp (ff : FileFinder) (h1 : ff.excludeDirs = [])
    (h2 : ff.excludePatterns = []) (p : String) (es : List FTree) :
    (((procEntries ff p es).1 : Multiset String)
        + jobsFiles ff (procEntries ff p es).2.2
        = ((seqEntries ff p es).1 : Multiset String))
    ∧ (((procEntries ff p es).2.1 : Multiset String)
        + jobsDirs ff (procEntries ff p es).2.2
        = ((seqEntries ff p es).2 : Multiset String))
    ∧ (jobsVisits (procEntries ff p es).2.2
        = ((visitEntries p es) : Multiset String)) := by
  induction es with
  | nil => simp [procEntries, seqEntries, visitEntries, jobsFiles, jobsDirs, jobsVisits]
  | cons e es ih =>
    obtain ⟨ihf, ihd, ihv⟩ := ih
    cases e with
    | file n sz =>
      have hex : ShouldExclude ff (joinPath p n) = false :=
        shouldExclude_of_empty ff h1 h2 _
      cases hc : (MatchesPattern ff n && CheckFileType ff (joinPath p n)
          && (!sizeFilterActive ff || CheckFileSizeStat ff sz)) with
      | false =>
        refine ⟨?_, ?_, ?_⟩ <;>
          simp only [procEntries, seqEntries, seqEntry, visitEntries, visitEntry,
            hex, hc, Bool.false_eq_true, if_false, coe_append, coe_cons,
            List.nil_append] <;>
          first
            | exact ihf
            | exact ihd
            | exact ihv
      | true =>
        refine ⟨?_, ?_, ?_⟩ <;>
          simp only [procEntries, seqEntries, seqEntry, visitEntries, visitEntry,
            hex, hc, Bool.false_eq_true, if_false, if_true, coe_append, coe_cons,
            List.nil_append, ← Multiset.singleton_add]
        · rw [← ihf]; abel
        · exact ihd
        · exact ihv
    | dir n cs =>
      have hex : ShouldExclude ff (joinPath p n) = false :=
        shouldExclude_of_empty ff h1 h2 _
      cases hm : MatchesPattern ff n with
      | false =>
        refine ⟨?_, ?_, ?_⟩ <;>
          simp only [procEntries, seqEntries, seqEntry, visitEntries, visitEntry,
            visitList, hex, hm, Bool.false_eq_true, if_false, coe_append, coe_cons,
            List.nil_append, jobsFiles_cons, jobsDirs_cons, jobsVisits_cons,
            ← Multiset.singleton_add]
        · rw [← ihf]; try abel
        · rw [← ihd]; try abel
        · rw [← ihv]; try abel
      | true =>
        refine ⟨?_, ?_, ?_⟩ <;>
          simp only [procEntries, seqEntries, seqEntry, visitEntries, visitEntry,
            visitList, hex, hm, Bool.false_eq_true, if_false, if_true, coe_append,
            coe_cons, List.nil_append, jobsFiles_cons, jobsDirs_cons,
            jobsVisits_cons, ← Multiset.singleton_add]
        · rw [← ihf]; try abel
        · rw [← ihd]; try abel
        · rw [← ihv]; try abel

/-- One walker step preserves the aggregate measures: results so far plus
what the pending jobs will still produce, and directories processed so far
plus what the pending jobs will still visit. -/
theorem walkStep_measure (ff : FileFinder) (h1 : ff.excludeDirs = [])
    (h2 : ff.excludePatterns = []) (s s2 : WalkState)
    (hstep : WalkStep ff s s2) :
    ((s2.files : Multiset String) + jobsFiles ff s2.pending
        = (s.files : Multiset String) + jobsFiles ff s.pending)
    ∧ ((s2.dirs : Multiset String) + jobsDirs ff s2.pending
        = (s.dirs : Multiset String) + jobsDirs ff s.pending)
    ∧ ((s2.processed : Multiset String) + jobsVisits s2.pending
        = (s.processed : Multiset String) + jobsVisits s.pending) := by
  cases hstep with
  | proc i =>
    cases hj : s.pending[i]? with
    | none => simp [procJob, hj]
    | some job =>
      obtain ⟨df, dd, dv⟩ := procEntries_decomp ff h1 h2 job.1 job.2
      refine ⟨?_, ?_, ?_⟩ <;> simp only [procJob, hj]
      · rw [jobsFiles_extract ff s.pending i job hj, coe_append,
          jobsFiles_append, ← df]
        abel
      · rw [jobsDirs_extract ff s.pending i job hj, coe_append,
          jobsDirs_append, ← dd]
        abel
      · rw [jobsVisits_extract s.pending i job hj, coe_append,
          jobsVisits_append, dv]
        simp only [visitList, coe_cons, ← Multiset.singleton_add,
          Multiset.coe_nil]
        abel

/-- Along every schedule from the seeded queue, results-so-far plus
still-pending work is a constant: the full sequential walk of the tree. -/
theorem walkReachable_measure (ff : FileFinder) (h1 : ff.excludeDirs = [])
    (h2 : ff.excludePatterns = []) (rootPath : String) (entries : List FTree)
    (s : WalkState) (hreach : WalkReachable ff rootPath entries s) :
    ((s.files : Multiset String) + jobsFiles ff s.pending
        = ((seqEntries ff rootPath entries).1 : Multiset String))
    ∧ ((s.dirs : Multiset String) + jobsDirs ff s.pending
        = ((seqEntries ff rootPath entries).2 : Multiset String))
    ∧ ((s.processed : Multiset String) + jobsVisits s.pending
        = ((visitList rootPath entries) : Multiset String)) := by
  induction hreach with
  | refl =>
    refine ⟨?_, ?_, ?_⟩ <;>
      simp [initWalkState, jobsFiles, jobsDirs, jobsVisits]
  | tail hab hbc ih =>
    obtain ⟨mf, md, mv⟩ := walkStep_measure ff h1 h2 _ _ hbc
    exact ⟨mf.trans ih.1, md.trans ih.2.1, mv.trans ih.2.2⟩

/-- C1: with no exclusion rules and no cancellation, every terminal state of
the concurrent scan agrees with the naive sequential recursive walk applying
the same pattern, type and size filters: the matched files and matched
directories coincide as multisets (hence as sets, with the same
multiplicities), and the multiset of directories whose listing was processed
is exactly the tree's directories — the root and each subdirectory — each
visited exactly once. -/
theorem findFilesAndDirs_refines_sequential_walk (ff : FileFinder)
    (h1 : ff.excludeDirs = []) (h2 : ff.excludePatterns = [])
    (rootPath : String) (entries : List FTree) (s : WalkState)
    (hreach : WalkReachable ff rootPath entries s)
    (hterm : s.pending = []) :
    ((s.files : Multiset String) = ((seqEntries ff rootPath entries).1 : Multiset String))
    ∧ ((s.dirs : Multiset String) = ((seqEntries ff rootPath entries).2 : Multiset String))
    ∧ ((s.processed : Multiset String) = ((visitList rootPath entries) : Multiset String)) := by
  obtain ⟨mf, md, mv⟩ := walkReachable_measure ff h1 h2 rootPath entries s hreach
  rw [hterm] at mf md mv
  simp only [jobsFiles, jobsDirs, jobsVisits, List.map_nil, List.sum_nil,
    add_zero] at mf md mv
  exact ⟨mf, md, mv⟩

/-- C1 witness: on the fixture tree, after the worker pool processes the
root job and then the one child job, the terminal state's results and visit
log equal those of the sequential walk. -/
theorem findFilesAndDirs_refines_sequential_walk_witness :
    ((wStateC1.files : Multiset String)
        = ((seqEntries ffAll "r" treeW).1 : Multiset String))
    ∧ ((wStateC1.dirs : Multiset String)
        = ((seqEntries ffAll "r" treeW).2 : Multiset String))
    ∧ ((wStateC1.processed : Multiset String)
        = ((visitList "r" treeW) : Multiset String)) :=
  findFilesAndDirs_refines_sequential_walk ffAll rfl rfl "r" treeW wStateC1
    (Relation.ReflTransGen.tail
      (Relation.ReflTransGen.single (WalkStep.proc _ 0)) (WalkStep.proc _ 0))
    rfl

/-! ## Root-path validation (`check-folder-size`) -/

/-- C4 (counterexample): a root path that exists but is a plain file is not
rejected before the scan: the entry point calls the scanner, whose
`os.ReadDir` failure yields an empty result with warning count 1 — a scan
outcome, not the configuration-class error the claim requires for every
non-directory root. -/
theorem rootNotDirectory_not_failfast :
    runCheckFolderSize [] 0 (some (.file "f" (some 3)))
      = .ok { sizes := [], warningCount := 1 } := rfl

/-- C4 (amended): a root path that does not exist is rejected immediately
with a configuration-class error and no scan output exists; a root that
exists but is not a directory (plain file or symlink) is handed to the
scanner, which returns at once with empty sizes and warning count 1. -/
theorem rootPath_validation (excl : List String) (maxDepth : Int) :
    runCheckFolderSize excl maxDepth none = .error .pathNotExist
    ∧ (∀ n sz, runCheckFolderSize excl maxDepth (some (.file n sz))
        = .ok { sizes := [], warningCount := 1 })
    ∧ (∀ n st, runCheckFolderSize excl maxDepth (some (.symlink n st))
        = .ok { sizes := [], warningCount := 1 }) :=
  ⟨rfl, fun _ _ => rfl, fun _ _ => rfl⟩

/-! ## The size cache under stat failure (`GetFileSize`) -/

/-- C5 (counterexample): on a stat failure `GetFileSize` returns
`(0, false)` and leaves the whole mutable state — the cache and the
`skippedDirs` counter, the only warning-style counter `find-everything`
keeps — unchanged; no warning counter is incremented. -/
theorem getFileSize_statFailure_counterexample :
    GetFileSize fsFail { fileCache := [], skippedDirs := 0 } "x"
        = ((0, false), { fileCache := [], skippedDirs := 0 })
    ∧ ¬ (GetFileSize fsFail { fileCache := [], skippedDirs := 0 } "x").2.skippedDirs
        = 0 + 1 :=
  ⟨rfl, by decide⟩

/-- C5 (amended): on a cache miss whose `os.Stat` fails, `GetFileSize`
returns `ok = false` with the state untouched (no counter incremented, no
cache entry), and the scan is not aborted: the walker simply drops that file
and processes the remaining entries identically whenever the size filter is
active. -/
theorem getFileSize_statFailure (fs : String → Option Int)
    (st : FinderCacheState) (p : String)
    (hc : st.fileCache.lookup p = none) (hf : fs p = none) :
    GetFileSize fs st p = ((0, false), st)
    ∧ ∀ (ff : FileFinder) (parent n : String) (es : List FTree),
        sizeFilterActive ff = true →
        procEntries ff parent (.file n none :: es) = procEntries ff parent es := by
  constructor
  · simp [GetFileSize, hc, hf]
  · intro ff parent n es hact
    simp [procEntries, CheckFileSizeStat, hact]

/-- C5 witness: a concrete failing stat on a nonempty state. -/
theorem getFileSize_statFailure_witness :
    (GetFileSize fsFail { fileCache := [("y", 3)], skippedDirs := 5 } "x"
        = ((0, false), { fileCache := [("y", 3)], skippedDirs := 5 }))
    ∧ ∀ (ff : FileFinder) (parent n : String) (es : List FTree),
        sizeFilterActive ff = true →
        procEntries ff parent (.file n none :: es) = procEntries ff parent es :=
  getFileSize_statFailure fsFail { fileCache := [("y", 3)], skippedDirs := 5 }
    "x" (by decide) rfl

/-! ## The size-cache capacity bound -/

/-- A successful association-list lookup finds a stored pair. -/
theorem lookup_mem {l : List (String × Int)} {a : String} {b : Int}
    (h : List.lookup a l = some b) : (a, b) ∈ l := by
  induction l with
  | nil => simp [List.lookup] at h
  | cons hd tl ih =>
    obtain ⟨k, v⟩ := hd
    simp only [List.lookup] at h
    cases hk : (a == k) with
    | true =>
      rw [hk] at h
      have hv : v = b := by simpa using h
      have hak : a = k := by simpa using hk
      subst hv
      subst hak
      exact List.mem_cons_self _ _
    | false =>
      rw [hk] at h
      exact List.mem_cons_of_mem _ (ih h)

/-- One `GetFileSize` call preserves cache consistency and the capacity
bound, and returns exactly the bare stat outcome. -/
theorem getFileSize_step (fs : String → Option Int) (st : FinderCacheState)
    (p : String) (hcons : ∀ pr ∈ st.fileCache, fs pr.1 = some pr.2)
    (hlen : st.fileCache.length ≤ 10000) :
    (GetFileSize fs st p).1 = pureStat fs p
    ∧ (∀ pr ∈ (GetFileSize fs st p).2.fileCache, fs pr.1 = some pr.2)
    ∧ (GetFileSize fs st p).2.fileCache.length ≤ 10000 := by
  cases hl : List.lookup p st.fileCache with
  | some size =>
    have hfp : fs p = some size := hcons (p, size) (lookup_mem hl)
    refine ⟨by simp [GetFileSize, hl, pureStat, hfp], ?_, ?_⟩
    · simpa [GetFileSize, hl] using hcons
    · simpa [GetFileSize, hl] using hlen
  | none =>
    cases hf : fs p with
    | none =>
      refine ⟨by simp [GetFileSize, hl, hf, pureStat], ?_, ?_⟩
      · simpa [GetFileSize, hl, hf] using hcons
      · simpa [GetFileSize, hl, hf] using hlen
    | some size =>
      by_cases hcap : st.fileCache.length < 10000
      · refine ⟨by simp [GetFileSize, hl, hf, pureStat, hcap], ?_, ?_⟩
        · intro pr hpr
          simp only [GetFileSize, hl, hf, if_pos hcap] at hpr
          rcases List.mem_cons.mp hpr with h | h
          · rw [h]; exact hf
          · exact hcons pr h
        · have : (GetFileSize fs st p).2.fileCache.length
              = st.fileCache.length + 1 := by
            simp [GetFileSize, hl, hf, hcap]
          omega
      · refine ⟨by simp [GetFileSize, hl, hf, pureStat, hcap], ?_, ?_⟩
        · simpa [GetFileSize, hl, hf, hcap] using hcons
        · simpa [GetFileSize, hl, hf, hcap] using hlen

/-- Folding `GetFileSize` preserves consistency and the bound and returns
the bare stat outcomes. -/
theorem runGetFileSizes_spec (fs : String → Option Int) (ps : List String) :
    ∀ st : FinderCacheState, (∀ pr ∈ st.fileCache, fs pr.1 = some pr.2) →
      st.fileCache.length ≤ 10000 →
      (runGetFileSizes fs st ps).1 = ps.map (pureStat fs)
      ∧ (∀ pr ∈ (runGetFileSizes fs st ps).2.fileCache, fs pr.1 = some pr.2)
      ∧ (runGetFileSizes fs st ps).2.fileCache.length ≤ 10000 := by
  induction ps with
  | nil => intro st h1 h2; exact ⟨rfl, h1, h2⟩
  | cons p ps ih =>
    intro st h1 h2
    obtain ⟨e1, e2, e3⟩ := getFileSize_step fs st p h1 h2
    obtain ⟨f1, f2, f3⟩ := ih (GetFileSize fs st p).2 e2 e3
    refine ⟨?_, ?_, ?_⟩ <;> simp only [runGetFileSizes, List.map_cons]
    · rw [e1, f1]
    · exact f2
    · exact f3

/-- C6: starting from an empty cache, any sequence of `GetFileSize` calls
keeps the cache within its 10,000-entry capacity, and every call — cache
hit, cache fill, or over-capacity non-cached computation — returns exactly
the bare `os.Stat` outcome, so results are unchanged by the bound. -/
theorem sizeCache_bounded_and_correct (fs : String → Option Int)
    (ps : List String) :
    (runGetFileSizes fs { fileCache := [], skippedDirs := 0 } ps).1
        = ps.map (pureStat fs)
    ∧ (runGetFileSizes fs { fileCache := [], skippedDirs := 0 } ps).2.fileCache.length
        ≤ 10000 := by
  obtain ⟨a, _, c⟩ := runGetFileSizes_spec fs ps
    { fileCache := [], skippedDirs := 0 } (by simp) (by simp)
  exact ⟨a, c⟩

/-! ## Symlinks are never followed during size accumulation -/

/-- The recursive size walk is unchanged when every symlink entry is erased
from the tree, at every depth. -/
theorem walkEntries_prune (excl : List String) (maxDepth : Int) (es : List STree) :
    ∀ depth, walkEntries excl maxDepth depth (pruneSymlinks es)
      = walkEntries excl maxDepth depth es := by
  induction es using pruneSymlinks.induct with
  | case1 => intro depth; simp [pruneSymlinks]
  | case2 n i es ih =>
    intro depth
    simp [pruneSymlinks, walkEntries, walkEntry, ih depth]
  | case3 n sz es ih =>
    intro depth
    simp [pruneSymlinks, walkEntries, ih depth]
  | case4 n cs es ihcs ihes =>
    intro depth
    simp [pruneSymlinks, walkEntries, walkEntry, ihcs, ihes]

/-- C7: `getFolderSize` never follows symlinks: the explicit per-entry
symlink check (`d.Type()&os.ModeSymlink != 0`) makes every symlink entry
contribute nothing — its target's size is never added, no warning is counted
for it, and the walk never descends through it — so the result (size and
warning count alike) is identical to walking the tree with all symlink
entries removed. -/
theorem getFolderSize_never_follows_symlinks (excl : List String)
    (maxDepth : Int) (cs : List STree) :
    getFolderSize excl maxDepth cs
      = getFolderSize excl maxDepth (pruneSymlinks cs) :=
  (walkEntries_prune excl maxDepth cs 1).symm

/-! ## Construction-time regex handling -/

/-- The strict exclude-pattern compilation of the `FinderOptions` revision
fails exactly when some configured pattern does not compile. -/
theorem compileAll_error_iff (compile : RegexCompiler) (ps : List String) :
    (∃ e, compileAll compile ps = .error e)
      ↔ ∃ q ∈ ps, (compile q).isNone = true := by
  induction ps with
  | nil => simp [compileAll]
  | cons p ps ih =>
    cases hc : compile p with
    | none => simp [compileAll, hc]
    | some re =>
      cases hrest : compileAll compile ps with
      | error e =>
        simp only [compileAll, hc, hrest]
        constructor
        · intro _
          rcases ih.mp ⟨e, hrest⟩ with ⟨q, hq, hnone⟩
          exact ⟨q, List.mem_cons_of_mem _ hq, hnone⟩
        · intro _
          exact ⟨e, rfl⟩
      | ok rest =>
        simp only [compileAll, hc, hrest]
        constructor
        · rintro ⟨e, he⟩
          exact absurd he (by simp)
        · rintro ⟨q, hq, hnone⟩
          rcases List.mem_cons.mp hq with rfl | hq2
          · rw [hc] at hnone
            exact absurd hnone (by simp)
          · rcases ih.mpr ⟨q, hq2, hnone⟩ with ⟨e, he⟩
            rw [he] at hrest
            exact absurd hrest (by simp)

/-- C8 (counterexample): the map-options revision of `NewFileFinder` does
not reject a configuration whose exclude-pattern list contains the invalid
regex `"["` — construction succeeds, the bad pattern is silently dropped. -/
theorem newFileFinder_accepts_invalid_exclude_pattern :
    ctorOk (NewFileFinderMap compileEx "r" "*" optsBadExclude) = true
    ∧ "[" ∈ optsBadExclude.excludePatterns
    ∧ (compileEx "[").isNone = true :=
  ⟨rfl, by simp [optsBadExclude], rfl⟩

/-- C8 (amended): given that the glob-derived match pattern compiles (Go's
`regexp.QuoteMeta`-based `GlobToRegex` always produces a valid regex), the
`FinderOptions` revision rejects the configuration at construction exactly
when some exclude pattern fails to compile, while the map-options revision
always constructs successfully, using only the exclude patterns that did
compile (invalid ones are silently dropped); in both revisions all regex
compilation happens at construction, so no invalid-regex error can surface
mid-scan. -/
theorem newFileFinder_invalid_regex_policy (compile : RegexCompiler)
    (bp pat : String) (opts : FinderOptions)
    (hok : (compile (finderRegexSource opts.caseSensitive pat)).isSome = true) :
    (ctorOk (NewFileFinderOpts compile bp pat opts) = false
        ↔ ∃ q ∈ opts.excludePatterns, (compile q).isNone = true)
    ∧ ctorOk (NewFileFinderMap compile bp pat opts) = true
    ∧ (∀ ffm, NewFileFinderMap compile bp pat opts = .ok ffm →
        ffm.excludePatterns = opts.excludePatterns.filterMap compile) := by
  obtain ⟨re, hre⟩ := Option.isSome_iff_exists.mp hok
  refine ⟨?_, ?_, ?_⟩
  · rw [← compileAll_error_iff compile opts.excludePatterns]
    cases hca : compileAll compile opts.excludePatterns with
    | error e =>
      have hv : NewFileFinderOpts compile bp pat opts = .error e := by
        unfold NewFileFinderOpts
        rw [hre, hca]
      rw [hv]
      simp only [ctorOk, true_iff]
      exact ⟨e, rfl⟩
    | ok cs =>
      have hv : ctorOk (NewFileFinderOpts compile bp pat opts) = true := by
        unfold NewFileFinderOpts
        rw [hre, hca]
        rfl
      rw [hv]
      simp only [Bool.true_eq_false, false_iff]
      rintro ⟨e, he⟩
      exact Except.noConfusion he
  · unfold NewFileFinderMap
    rw [hre]
    rfl
  · intro ffm hffm
    unfold NewFileFinderMap at hffm
    rw [hre] at hffm
    simp only [Except.ok.injEq] at hffm
    rw [← hffm]

/-- C8 witness: the fixture compiler and options with the invalid exclude
pattern `"["` instantiate the policy. -/
theorem newFileFinder_invalid_regex_policy_witness :
    (ctorOk (NewFileFinderOpts compileEx "r" "*" optsBadExclude) = false
        ↔ ∃ q ∈ optsBadExclude.excludePatterns, (compileEx q).isNone = true)
    ∧ ctorOk (NewFileFinderMap compileEx "r" "*" optsBadExclude) = true
    ∧ (∀ ffm, NewFileFinderMap compileEx "r" "*" optsBadExclude = .ok ffm →
        ffm.excludePatterns = optsBadExclude.excludePatterns.filterMap compileEx) :=
  newFileFinder_invalid_regex_policy compileEx "r" "*" optsBadExclude rfl

/-! ## Progress of the bounded work queue with overflow fallback -/

/-- Routing one child never touches the workers and never overfills the
channel. -/
theorem enqueueChild_spec {α : Type} (cap : Nat) (s : QueueState α) (j : α) :
    (enqueueChild cap s j).working = s.working
    ∧ (s.queued.length ≤ cap → (enqueueChild cap s j).queued.length ≤ cap) := by
  unfold enqueueChild
  by_cases h : s.queued.length < cap
  · simp [h]
    omega
  · simp [h]

/-- Routing any number of children never touches the workers and never
overfills the channel. -/
theorem enqueueAll_spec {α : Type} (cap : Nat) (js : List α) :
    ∀ s : QueueState α,
      (enqueueAll cap s js).working = s.working
      ∧ (s.queued.length ≤ cap → (enqueueAll cap s js).queued.length ≤ cap) := by
  induction js with
  | nil => intro s; exact ⟨rfl, fun h => h⟩
  | cons j js ih =>
    intro s
    obtain ⟨hw, hq⟩ := enqueueChild_spec cap s j
    obtain ⟨ihw, ihq⟩ := ih (enqueueChild cap s j)
    constructor
    · rw [enqueueAll, List.foldl_cons, ← enqueueAll]
      rw [ihw, hw]
    · intro h
      rw [enqueueAll, List.foldl_cons, ← enqueueAll]
      exact ihq (hq h)

/-- Every step of the queue machine preserves the channel-capacity and
worker-count bounds. -/
theorem queueInv_step {α : Type} (cap workers : Nat) (children : α → List α)
    (s s2 : QueueState α) (hstep : QueueStep cap workers children s s2)
    (hinv : QueueInv cap workers s) : QueueInv cap workers s2 := by
  obtain ⟨hq, hw⟩ := hinv
  cases hstep with
  | dequeue j rest hqe hwlen =>
    refine ⟨?_, ?_⟩
    · rw [hqe] at hq
      simp only [List.length_cons] at hq
      simp only [QueueInv]
      omega
    · simp only [List.length_cons]
      omega
  | finish i j hj =>
    obtain ⟨hw2, hq2⟩ :=
      enqueueAll_spec cap (children j) { s with working := s.working.eraseIdx i }
    refine ⟨hq2 hq, ?_⟩
    rw [hw2]
    exact le_trans (List.length_eraseIdx_le _ _) hw
  | overflowSend i j hj hroom =>
    refine ⟨?_, hw⟩
    simp only [List.length_append, List.length_singleton]
    omega

/-- Every reachable state of the queue machine satisfies the bounds
(provided the channel has positive capacity, so that the seeded root fits). -/
theorem queueInv_reachable {α : Type} (cap workers : Nat)
    (children : α → List α) (root : α) (hcap : 0 < cap) (s : QueueState α)
    (hreach : QueueReachable cap workers children root s) :
    QueueInv cap workers s := by
  induction hreach with
  | refl =>
    refine ⟨?_, ?_⟩ <;> simp [initQueueState]
    omega
  | tail hab hbc ih => exact queueInv_step cap workers children _ _ hbc ih

/-- C9: the worker pool with the non-blocking enqueue and detached overflow
fallback never deadlocks: a worker holding a job can always finish it — the
child enqueue either lands in the channel or is delegated to a detached
blocking sender, never blocking the worker — and in any reachable state that
is not the terminal (all-drained) state some transition is enabled: a busy
worker can finish, an idle worker can dequeue, or an overflow sender can
complete its send into the non-full channel.  The scan always makes
progress. -/
theorem workQueue_no_deadlock {α : Type} (cap workers : Nat)
    (children : α → List α) (root : α) (hcap : 0 < cap)
    (hworkers : 0 < workers) (s : QueueState α)
    (hreach : QueueReachable cap workers children root s)
    (hnd : ¬ QueueDone s) :
    ∃ s2, QueueStep cap workers children s s2 := by
  obtain ⟨hq, hw⟩ := queueInv_reachable cap workers children root hcap s hreach
  cases hwork : s.working with
  | cons j rest =>
    refine ⟨_, QueueStep.finish s 0 j ?_⟩
    rw [hwork]
    simp
  | nil =>
    cases hque : s.queued with
    | cons j rest =>
      refine ⟨_, QueueStep.dequeue s j rest hque ?_⟩
      rw [hwork]
      simpa using hworkers
    | nil =>
      cases hover : s.overflow with
      | cons j rest =>
        refine ⟨_, QueueStep.overflowSend s 0 j ?_ ?_⟩
        · rw [hover]; simp
        · rw [hque]; simpa using hcap
      | nil => exact absurd ⟨hque, hover, hwork⟩ hnd

/-- C9 witness: the freshly seeded machine (capacity 1, one worker) is not
done and can step (the worker dequeues the root job). -/
theorem workQueue_no_deadlock_witness :
    ∃ s2, QueueStep 1 1 (fun _ : Nat => []) (initQueueState 0) s2 :=
  workQueue_no_deadlock 1 1 (fun _ => []) 0 (by decide) (by decide)
    (initQueueState 0) Relation.ReflTransGen.refl
    (by simp [QueueDone, initQueueState])

end MyCli
